import Mathlib

/-!
Shallow embedding of the sorting application (io_handler.py, sorting.py,
network_handler.py) and proofs of the specification claims.

Modelling conventions:
* A parsed token (Python int / float / str) is the tagged union `Value`.
  Python str values are modelled as their list of code points (`List Char`);
  Lean `String` is used at the API boundary.
* Python floats are idealised as exact decimal rationals plus the special
  values inf, -inf, nan (`PyFloat`).  `float(token)` literal parsing follows
  the CPython ASCII grammar (optional sign, digit runs with single
  underscores between digits, optional fraction and exponent, and the
  case-insensitive literals inf / infinity / nan); `str(float)` is modelled
  as the plain decimal form.  IEEE rounding is idealised away; this is
  value-preserving for every claim proved here.
* `int(token)` parsing follows the CPython ASCII grammar: optional single
  sign, then a non-empty digit run with single underscores between digits.
* Whitespace (for `str.split()` / `str.strip()`) is the ASCII whitespace
  set space, tab, newline, carriage return, vertical tab, form feed.
* `sorted(data)` raises `TypeError` exactly when the list contains both a
  str and a numeric element (every adjacent pair is compared during run
  detection / binary insertion, and any str-to-number comparison raises);
  otherwise it is the stable sort by the `<` comparison.  Exceptions are
  modelled with `Except` / explicit outcome types.
-/

/-- ASCII whitespace as recognised by Python `str.split()` and `str.strip()`. -/
def pyIsSpace (c : Char) : Bool :=
  c == ' ' || c == '\t' || c == '\n' || c == '\r' || c == '\x0b' || c == '\x0c'

/-- Accumulating tokenizer for Python `str.split()` (no separator argument):
maximal runs of non-whitespace characters, empty tokens discarded.
`cur` holds the current token, reversed. -/
def tokensAux (cur : List Char) : List Char → List (List Char)
  | [] => if cur.isEmpty then [] else [cur.reverse]
  | c :: cs =>
    if pyIsSpace c then
      if cur.isEmpty then tokensAux [] cs else cur.reverse :: tokensAux [] cs
    else
      tokensAux (c :: cur) cs

/-- Python `s.split()` on code-point lists. -/
def pySplitL (l : List Char) : List (List Char) := tokensAux [] l

/-- Python `s.strip()` on code-point lists: drop leading and trailing whitespace. -/
def pyStripL (l : List Char) : List Char :=
  ((l.dropWhile pyIsSpace).reverse.dropWhile pyIsSpace).reverse

/-- Python `s.strip()` on strings. -/
def pyStripS (s : String) : String := String.mk (pyStripL s.data)

/-- Numeric value of a decimal digit character. -/
def dval (c : Char) : Nat := c.toNat - 48

/-- The decimal digit character for a value below ten. -/
def digitChar : Nat → Char
  | 0 => '0' | 1 => '1' | 2 => '2' | 3 => '3' | 4 => '4'
  | 5 => '5' | 6 => '6' | 7 => '7' | 8 => '8' | _ => '9'

/-- Value of a most-significant-first digit list. -/
def digsVal (l : List Char) : Nat := l.foldl (fun a c => a * 10 + dval c) 0

/-- Digit-run consumer for `int(token)`: after an initial digit, consumes
digits with single underscores allowed between digits, and must consume the
whole remaining input. -/
def intDigitsGo (acc : Nat) : List Char → Option Nat
  | [] => some acc
  | c :: cs =>
    if c.isDigit then intDigitsGo (acc * 10 + dval c) cs
    else if c == '_' then
      match cs with
      | c2 :: cs2 => if c2.isDigit then intDigitsGo (acc * 10 + dval c2) cs2 else none
      | [] => none
    else none

/-- Unsigned part of `int(token)`: a non-empty digit run (underscores only
between digits) spanning the whole input. -/
def parseDigits : List Char → Option Nat
  | [] => none
  | c :: cs => if c.isDigit then intDigitsGo (dval c) cs else none

/-- Python `int(token)` on a whitespace-free token: optional single sign,
then a non-empty digit run. Returns `none` where CPython raises `ValueError`. -/
def pyInt? (t : List Char) : Option Int :=
  match t with
  | '+' :: rest => (parseDigits rest).map Int.ofNat
  | '-' :: rest => (parseDigits rest).map (fun k => -Int.ofNat k)
  | _ => (parseDigits t).map Int.ofNat

/-- Maximal digit run with single underscores between digits; returns the
run's value, its digit count and the unconsumed rest.  `acc`, `cnt` carry
the value and count so far; only called after an initial digit. -/
def takeDigitsUGo (acc cnt : Nat) : List Char → Nat × Nat × List Char
  | [] => (acc, cnt, [])
  | c :: cs =>
    if c.isDigit then takeDigitsUGo (acc * 10 + dval c) (cnt + 1) cs
    else if c == '_' then
      match cs with
      | c2 :: cs2 =>
        if c2.isDigit then takeDigitsUGo (acc * 10 + dval c2) (cnt + 1) cs2
        else (acc, cnt, c :: cs)
      | [] => (acc, cnt, [c])
    else (acc, cnt, c :: cs)

/-- Maximal digit run (possibly empty) from the front of the input. -/
def takeDigitsU : List Char → Nat × Nat × List Char
  | [] => (0, 0, [])
  | c :: cs => if c.isDigit then takeDigitsUGo (dval c) 1 cs else (0, 0, c :: cs)

/-- Mantissa of a float literal: `digits [. digits]` or `. digits`, with at
least one digit overall.  Returns the scaled integer value `iv * 10 ^ fc + fv`,
the fraction length `fc`, and the unconsumed rest. -/
def parseMantissa (t : List Char) : Option (Nat × Nat × List Char) :=
  match takeDigitsU t with
  | (iv, ic, r1) =>
    match r1 with
    | '.' :: r2 =>
      match takeDigitsU r2 with
      | (fv, fc, r3) =>
        if ic + fc == 0 then none else some (iv * 10 ^ fc + fv, fc, r3)
    | _ => if ic == 0 then none else some (iv, 0, r1)

/-- Finite part of Python `float(token)`: mantissa with optional exponent,
returned as a single exact rational `divInt n (10 ^ k)`. -/
def pyFloatNum? (t : List Char) : Option Rat :=
  match parseMantissa t with
  | none => none
  | some (m, fl, r) =>
    match r with
    | [] => some (Rat.divInt (Int.ofNat m) (Int.ofNat (10 ^ fl)))
    | c :: r2 =>
      if c == 'e' || c == 'E' then
        match (match r2 with
               | '+' :: r4 => (false, r4)
               | '-' :: r4 => (true, r4)
               | _ => (false, r2)) with
        | (eneg, r3) =>
          match takeDigitsU r3 with
          | (ev, ec, r4) =>
            if ec == 0 || !r4.isEmpty then none
            else if eneg then some (Rat.divInt (Int.ofNat m) (Int.ofNat (10 ^ (fl + ev))))
            else some (Rat.divInt (Int.ofNat (m * 10 ^ ev)) (Int.ofNat (10 ^ fl)))
      else none

/-- A Python float value: an exact decimal rational or a special value. -/
inductive PyFloat where
  | finite (q : Rat)
  | inf
  | ninf
  | nan
deriving DecidableEq, Repr

/-- Lower-cased code points, for the case-insensitive inf / nan literals. -/
def lowerL (l : List Char) : List Char := l.map Char.toLower

/-- Python `float(token)` on a whitespace-free token: optional single sign,
then inf / infinity / nan (case-insensitive) or a finite decimal literal.
Returns `none` where CPython raises `ValueError`. -/
def pyFloat? (t : List Char) : Option PyFloat :=
  match (match t with
         | '+' :: r => (false, r)
         | '-' :: r => (true, r)
         | _ => (false, t)) with
  | (neg, body) =>
    let low := lowerL body
    if low == "inf".data || low == "infinity".data then
      some (if neg then PyFloat.ninf else PyFloat.inf)
    else if low == "nan".data then some PyFloat.nan
    else
      match pyFloatNum? body with
      | some q => some (PyFloat.finite (if neg then -q else q))
      | none => none

/-- A parsed token: Python int, float or str (str as its code points). -/
inductive Value where
  | int (n : Int)
  | float (f : PyFloat)
  | str (s : List Char)
deriving DecidableEq, Repr

/-- The tag of a `Value`. -/
inductive VTag where
  | int
  | float
  | str
deriving DecidableEq, Repr

/-- Tag projection. -/
def vTag : Value → VTag
  | .int _ => .int
  | .float _ => .float
  | .str _ => .str

/-- Token classification from `parse_input`: try `int(item)` first, then
`float(item)`, otherwise keep the token as a str. -/
def parseToken (t : List Char) : Value :=
  match pyInt? t with
  | some n => Value.int n
  | none =>
    match pyFloat? t with
    | some f => Value.float f
    | none => Value.str t

/-- io_handler.parse_input: empty or all-whitespace input yields `[]`,
otherwise every whitespace-separated token is classified and kept. -/
def parse_input (s : String) : List Value :=
  if s.data.isEmpty || (pyStripL s.data).isEmpty then []
  else (pySplitL s.data).map parseToken

/-- Decimal digits of a natural number, least significant first; `fuel`
bounds the recursion and is sufficient whenever `n < 10 ^ fuel`. -/
def natDigitsGo : Nat → Nat → List Char
  | 0, _ => []
  | fuel + 1, n => if n == 0 then [] else digitChar (n % 10) :: natDigitsGo fuel (n / 10)

/-- Decimal digits of a natural number, most significant first, as printed
by Python `str(int)`. -/
def natDigits (n : Nat) : List Char :=
  if n == 0 then ['0'] else (natDigitsGo n n).reverse

/-- Python `str(int)`: canonical decimal form with a leading minus sign for
negative numbers. -/
def pyIntStr (n : Int) : List Char :=
  if n < 0 then '-' :: natDigits n.natAbs else natDigits n.natAbs

/-- Decimal expansion digits of the fraction `r / den` (`r < den`), produced
by long division; stops when the remainder is zero or `fuel` runs out. -/
def fracDigits (den : Nat) : Nat → Nat → List Char
  | 0, _ => []
  | fuel + 1, r =>
    if r == 0 then [] else digitChar (r * 10 / den) :: fracDigits den fuel (r * 10 % den)

/-- Unsigned decimal form `intpart.fracpart` of the fraction `n / d`
(with a bare `0` fraction for integral values). -/
def floatBody (n d : Nat) : List Char :=
  natDigits (n / d) ++ '.' ::
    (if (fracDigits d d (n % d)).isEmpty then ['0'] else fracDigits d d (n % d))

/-- Python `str(float)` for a finite value, idealised to the plain decimal
form: sign, integer digits, point, then the terminating decimal expansion. -/
def pyFloatStr (q : Rat) : List Char :=
  (if q < 0 then ['-'] else []) ++ floatBody q.num.natAbs q.den

/-- Stop condition for a maximal digit run: the rest is empty or starts with
a character that is neither a digit nor an underscore. -/
def runStop : List Char → Prop
  | [] => True
  | c :: _ => c.isDigit = false ∧ c ≠ '_'

/-- Python `str(value)` for a parsed token, as used by the handler's
space-joined response. -/
def pyStr : Value → List Char
  | .int n => pyIntStr n
  | .str s => s
  | .float .inf => "inf".data
  | .float .ninf => "-inf".data
  | .float .nan => "nan".data
  | .float (.finite q) => pyFloatStr q

/-- Python `' '.join(tokens)` on code-point lists. -/
def spaceJoinL : List (List Char) → List Char
  | [] => []
  | [t] => t
  | t :: ts => t ++ ' ' :: spaceJoinL ts

/-- Python `<` on str values: lexicographic comparison of code points. -/
def strLtB : List Char → List Char → Bool
  | [], [] => false
  | [], _ :: _ => true
  | _ :: _, [] => false
  | a :: as, b :: bs =>
    if a.toNat < b.toNat then true
    else if b.toNat < a.toNat then false
    else strLtB as bs

/-- Python `<` on float values: nan compares false against everything,
-inf below every other value, inf above, finite values by their rationals. -/
def pfLt : PyFloat → PyFloat → Bool
  | .nan, _ => false
  | _, .nan => false
  | .ninf, .ninf => false
  | .ninf, _ => true
  | _, .ninf => false
  | .inf, _ => false
  | _, .inf => true
  | .finite p, .finite q => decide (p < q)

/-- Python `<=` on float values: nan compares false against everything. -/
def pfLe : PyFloat → PyFloat → Bool
  | .nan, _ => false
  | _, .nan => false
  | .ninf, _ => true
  | _, .inf => true
  | .inf, _ => false
  | _, .ninf => false
  | .finite p, .finite q => decide (p ≤ q)

/-- Numeric view of a value: ints coerce to finite floats, str has none. -/
def valNum? : Value → Option PyFloat
  | .int n => some (.finite (n : Rat))
  | .float f => some f
  | .str _ => none

/-- Python `a < b` on parsed values: `none` models the `TypeError` raised
when a str is compared with a number. -/
def pyLt? : Value → Value → Option Bool
  | .str s, .str t => some (strLtB s t)
  | .str _, _ => none
  | _, .str _ => none
  | .int m, .int n => some (pfLt (.finite (m : Rat)) (.finite (n : Rat)))
  | .int m, .float g => some (pfLt (.finite (m : Rat)) g)
  | .float f, .int n => some (pfLt f (.finite (n : Rat)))
  | .float f, .float g => some (pfLt f g)

/-- Python `a <= b` on parsed values: `none` models the `TypeError` raised
when a str is compared with a number. -/
def pyLe? : Value → Value → Option Bool
  | .str s, .str t => some (!strLtB t s)
  | .str _, _ => none
  | _, .str _ => none
  | .int m, .int n => some (pfLe (.finite (m : Rat)) (.finite (n : Rat)))
  | .int m, .float g => some (pfLe (.finite (m : Rat)) g)
  | .float f, .int n => some (pfLe f (.finite (n : Rat)))
  | .float f, .float g => some (pfLe f g)

/-- Total `<` used inside the sort; the cross-tag default is never reached
on inputs the sort actually compares. -/
def pyLtB (a b : Value) : Bool := (pyLt? a b).getD false

/-- Whether a value is a str. -/
def isStrV : Value → Bool
  | .str _ => true
  | _ => false

/-- Whether the list contains a str value. -/
def hasStrV (l : List Value) : Bool := l.any isStrV

/-- Whether the list contains a numeric (int or float) value. -/
def hasNumV (l : List Value) : Bool := l.any (fun v => !isStrV v)

/-- Stability relation of Python's stable sort by `<`: keep `a` before `b`
exactly when `b < a` does not hold (reversed when sorting descending). -/
def sortRel (rev : Bool) (a b : Value) : Bool :=
  if rev then !pyLtB a b else !pyLtB b a

/-- Python `sorted(data, reverse=rev)`: raises `TypeError` (modelled as
`Except.error`) exactly when the list mixes str and numeric elements,
otherwise the stable sort by the element comparison (insertion sort here;
every stable sort agrees with it on comparable inputs). -/
def pySorted (l : List Value) (rev : Bool) : Except Unit (List Value) :=
  if hasStrV l && hasNumV l then .error ()
  else .ok (List.insertionSort (fun a b => sortRel rev a b = true) l)

/-- sorting.sort_data: empty input yields `[]`; a `TypeError` from
`sorted` is caught, a warning is printed, and the input is returned
unchanged; otherwise the sorted copy is returned. -/
def sort_data (data : List Value) (rev : Bool) : List Value :=
  if data.isEmpty then []
  else
    match pySorted data rev with
    | .ok s => s
    | .error _ => data

/-- Adjacent-pair check of sorting.is_sorted, with Python's short-circuit
`all(...)`: a `TypeError` (`Except.error`) surfaces only if it is reached
before a failing comparison. -/
def isSortedAux (rev : Bool) (a : Value) : List Value → Except Unit Bool
  | [] => .ok true
  | b :: rest =>
    match (if rev then pyLe? b a else pyLe? a b) with
    | none => .error ()
    | some false => .ok false
    | some true => isSortedAux rev b rest

/-- sorting.is_sorted: every adjacent pair must compare `<=` (or `>=` when
`rev`); a str-to-number comparison raises, modelled as `Except.error`. -/
def is_sorted (data : List Value) (rev : Bool) : Except Unit Bool :=
  match data with
  | [] => .ok true
  | a :: rest => isSortedAux rev a rest

/-- network_handler.create_sorting_handler: parse, answer the fixed error
string on an empty parse, otherwise sort and join with single spaces. -/
def create_sorting_handler (sort_function : List Value → List Value)
    (parse_function : String → List Value) : String → String :=
  fun input_data =>
    let data := parse_function input_data
    if data.isEmpty then "Error: No valid data to sort"
    else String.mk (spaceJoinL ((sort_function data).map pyStr))

/-- The handler installed by main.handle_server_mode:
`create_sorting_handler(sort_data, parse_input)`. -/
def sorting_handler : String → String :=
  create_sorting_handler (fun l => sort_data l false) parse_input

/-- network_handler.NetworkServer.handle_client_connection, per connection:
the list of decoded incoming frames is processed in order; each frame is
stripped, an empty result exits the loop, otherwise the installed handler
(or the inline echo default when none is installed) produces the response,
which is sent followed by a newline.  Returns the responses sent and the
inputs passed to the installed handler. -/
def handle_client_connection (handler : Option (String → String)) :
    List String → List String × List String
  | [] => ([], [])
  | frame :: rest =>
    let data := pyStripS frame
    if data = "" then ([], [])
    else
      let response :=
        match handler with
        | some h => h data
        | none => "Echo: " ++ data
      ((response ++ "\n") :: (handle_client_connection handler rest).1,
       (match handler with | some _ => [data] | none => []) ++
         (handle_client_connection handler rest).2)

/-- Outcome of the socket interaction inside one send_data call: the
response bytes were received, or the first fault raised. -/
inductive SendOutcome where
  | success (raw : String)
  | refused
  | timedOut
  | failed (msg : String)
deriving DecidableEq, Repr

/-- network_handler.NetworkClient.send_data: the first component is the
returned string (stripped response, or the descriptive error string built
from the caught exception); the second records whether the socket opened by
this call was closed before returning — the `client_socket.close()` line is
reached only on the success path, the three `except` arms return directly. -/
def send_data (host : String) (port : Nat) (_data : String) (timeout : Nat)
    (outcome : SendOutcome) : String × Bool :=
  match outcome with
  | .success raw => (pyStripS raw, true)
  | .refused => ("Error: Cannot connect to server at " ++ host ++ ":" ++ toString port, false)
  | .timedOut => ("Error: Connection timeout after " ++ toString timeout ++ " seconds", false)
  | .failed msg => ("Error: " ++ msg, false)

/-- Outcome of the connect_ex probe inside test_connection: an error code,
or an exception raised before connect_ex returned. -/
inductive ProbeOutcome where
  | code (result : Int)
  | exn
deriving DecidableEq, Repr

/-- network_handler.NetworkClient.test_connection: reachable exactly when
connect_ex returned zero; any exception reports unreachable. -/
def test_connection (o : ProbeOutcome) : Bool :=
  match o with
  | .code r => r == 0
  | .exn => false

theorem tokensAux_token_facts (l : List Char) :
    ∀ (cur : List Char), (∀ c ∈ cur, pyIsSpace c = false) →
      ∀ tok ∈ tokensAux cur l, tok ≠ [] ∧ ∀ c ∈ tok, pyIsSpace c = false := by
  induction l with
  | nil =>
    intro cur hcur tok htok
    simp only [tokensAux] at htok
    split at htok
    · simp at htok
    · next h =>
      simp only [List.mem_singleton] at htok
      subst htok
      refine ⟨by simpa using (by simpa [List.isEmpty_iff] using h), ?_⟩
      intro c hc
      exact hcur c (List.mem_reverse.mp hc)
  | cons c cs ih =>
    intro cur hcur tok htok
    simp only [tokensAux] at htok
    split at htok
    · split at htok
      · exact ih [] (by simp) tok htok
      · next h =>
        rcases List.mem_cons.mp htok with h1 | h1
        · subst h1
          refine ⟨by simpa using (by simpa [List.isEmpty_iff] using h), ?_⟩
          intro x hx
          exact hcur x (List.mem_reverse.mp hx)
        · exact ih [] (by simp) tok h1
    · next h =>
      refine ih (c :: cur) ?_ tok htok
      intro x hx
      rcases List.mem_cons.mp hx with h1 | h1
      · subst h1; simpa using h
      · exact hcur x h1

theorem tokensAux_ne_nil (l : List Char) :
    ∀ cur, (cur ≠ [] ∨ ∃ c ∈ l, pyIsSpace c = false) → tokensAux cur l ≠ [] := by
  induction l with
  | nil =>
    intro cur h
    rcases h with h | h
    · simp [tokensAux, List.isEmpty_iff, h]
    · simp at h
  | cons c cs ih =>
    intro cur h
    simp only [tokensAux]
    split
    · next hsp =>
      split
      · next hcur =>
        refine ih [] (Or.inr ?_)
        rcases h with h | ⟨x, hx, hxs⟩
        · exact absurd (List.isEmpty_iff.mp hcur) h
        · rcases List.mem_cons.mp hx with h1 | h1
          · subst h1; simp [hsp] at hxs
          · exact ⟨x, h1, hxs⟩
      · simp
    · exact ih (c :: cur) (Or.inl (by simp))

theorem tokensAux_all_space (l : List Char) (h : ∀ c ∈ l, pyIsSpace c = true) :
    ∀ cur, tokensAux cur l = if cur.isEmpty then [] else [cur.reverse] := by
  induction l with
  | nil => intro cur; rfl
  | cons c cs ih =>
    intro cur
    have hc : pyIsSpace c = true := h c (by simp)
    have hcs : ∀ x ∈ cs, pyIsSpace x = true := fun x hx => h x (by simp [hx])
    simp only [tokensAux, hc, if_true]
    split
    · exact ih hcs []
    · rw [ih hcs []]; rfl

theorem pyStripL_eq_nil_iff (l : List Char) :
    pyStripL l = [] ↔ ∀ c ∈ l, pyIsSpace c = true := by
  constructor
  · intro h c hc
    unfold pyStripL at h
    rw [List.reverse_eq_nil_iff, List.dropWhile_eq_nil_iff] at h
    have h1 : ∀ x ∈ l.dropWhile pyIsSpace, pyIsSpace x = true := by
      intro x hx
      exact h x (by simpa using hx)
    have h2 : ∀ x ∈ l.takeWhile pyIsSpace, pyIsSpace x = true := by
      intro x hx
      exact List.mem_takeWhile_imp hx
    have : c ∈ l.takeWhile pyIsSpace ++ l.dropWhile pyIsSpace := by
      rwa [List.takeWhile_append_dropWhile]
    rcases List.mem_append.mp this with h3 | h3
    · exact h2 c h3
    · exact h1 c h3
  · intro h
    unfold pyStripL
    have h1 : l.dropWhile pyIsSpace = [] :=
      List.dropWhile_eq_nil_iff.mpr h
    simp [h1]

theorem tokensAux_append_nonspace (tok : List Char) :
    ∀ (cur l : List Char), (∀ c ∈ tok, pyIsSpace c = false) →
      tokensAux cur (tok ++ l) = tokensAux (tok.reverse ++ cur) l := by
  induction tok with
  | nil => intro cur l _; simp
  | cons c cs ih =>
    intro cur l h
    have hc : pyIsSpace c = false := h c (by simp)
    simp only [List.cons_append, tokensAux, hc, Bool.false_eq_true, if_false,
      List.append_eq]
    rw [ih (c :: cur) l (fun x hx => h x (by simp [hx]))]
    simp [List.append_assoc]

theorem pySplit_join (toks : List (List Char))
    (h : ∀ t ∈ toks, t ≠ [] ∧ ∀ c ∈ t, pyIsSpace c = false) :
    pySplitL (spaceJoinL toks) = toks := by
  induction toks with
  | nil => rfl
  | cons t ts ih =>
    obtain ⟨hne, hns⟩ := h t (by simp)
    cases ts with
    | nil =>
      show tokensAux [] (spaceJoinL [t]) = [t]
      have : spaceJoinL [t] = t ++ [] := by simp [spaceJoinL]
      rw [this, tokensAux_append_nonspace t [] [] hns]
      simp [tokensAux, List.isEmpty_iff, hne]
    | cons t2 ts2 =>
      show tokensAux [] (spaceJoinL (t :: t2 :: ts2)) = t :: t2 :: ts2
      have hj : spaceJoinL (t :: t2 :: ts2) = t ++ ' ' :: spaceJoinL (t2 :: ts2) := by
        rfl
      rw [hj, tokensAux_append_nonspace t [] _ hns]
      have hsp : pyIsSpace ' ' = true := by decide
      simp only [tokensAux, hsp, if_true, List.append_nil]
      have hcur : (t.reverse).isEmpty = false := by
        simp [List.isEmpty_iff, hne]
      rw [if_neg (by simp [hcur])]
      rw [List.reverse_reverse]
      exact congrArg (t :: ·) (ih (fun x hx => h x (by simp [hx])))

theorem tokensAux_append_space (suf : List Char)
    (hsuf : ∀ c ∈ suf, pyIsSpace c = true) :
    ∀ (pre cur : List Char), tokensAux cur (pre ++ suf) = tokensAux cur pre := by
  intro pre
  induction pre with
  | nil =>
    intro cur
    rw [List.nil_append, tokensAux_all_space suf hsuf cur]
    rfl
  | cons c cs ih =>
    intro cur
    simp only [List.cons_append, tokensAux, List.append_eq]
    split
    · split
      · exact ih []
      · rw [ih []]
    · exact ih (c :: cur)

theorem pySplit_dropWhile (l : List Char) :
    tokensAux [] (l.dropWhile pyIsSpace) = tokensAux [] l := by
  induction l with
  | nil => rfl
  | cons c cs ih =>
    by_cases hc : pyIsSpace c = true
    · rw [List.dropWhile_cons_of_pos hc]
      rw [ih]
      simp [tokensAux, hc]
    · rw [List.dropWhile_cons_of_neg (by simpa using hc)]

theorem pySplit_strip (l : List Char) : pySplitL (pyStripL l) = pySplitL l := by
  unfold pySplitL
  have hdecomp :
      l.dropWhile pyIsSpace =
        pyStripL l ++ ((l.dropWhile pyIsSpace).reverse.takeWhile pyIsSpace).reverse := by
    unfold pyStripL
    rw [← List.reverse_append]
    rw [List.takeWhile_append_dropWhile]
    rw [List.reverse_reverse]
  calc tokensAux [] (pyStripL l)
      = tokensAux []
          (pyStripL l ++ ((l.dropWhile pyIsSpace).reverse.takeWhile pyIsSpace).reverse) := by
        rw [tokensAux_append_space _ (by
          intro c hc
          exact List.mem_takeWhile_imp (List.mem_reverse.mp hc)) _ []]
    _ = tokensAux [] (l.dropWhile pyIsSpace) := by rw [← hdecomp]
    _ = tokensAux [] l := pySplit_dropWhile l

theorem parse_input_elim_guard (s : String) :
    parse_input s = (pySplitL s.data).map parseToken := by
  unfold parse_input
  split
  · next h =>
    rcases Bool.or_eq_true_iff.mp h with h1 | h1
    · rw [List.isEmpty_iff.mp h1]; rfl
    · have hall : ∀ c ∈ s.data, pyIsSpace c = true :=
        (pyStripL_eq_nil_iff s.data).mp (List.isEmpty_iff.mp h1)
      unfold pySplitL
      rw [tokensAux_all_space _ hall []]
      rfl
  · rfl

theorem digitChar_spec (m : Nat) (h : m < 10) :
    (digitChar m).isDigit = true ∧ dval (digitChar m) = m := by
  interval_cases m <;> exact ⟨by decide, by decide⟩

theorem isDigit_not_space (c : Char) (h : c.isDigit = true) : pyIsSpace c = false := by
  by_contra hcon
  simp only [pyIsSpace, Bool.not_eq_false, Bool.or_eq_true, beq_iff_eq] at hcon
  rcases hcon with ((((h3 | h3) | h3) | h3) | h3) | h3 <;>
    (subst h3; exact absurd h (by decide))

theorem isDigit_ne (c : Char) (h : c.isDigit = true) :
    c ≠ '+' ∧ c ≠ '-' ∧ c ≠ '_' ∧ c ≠ '.' := by
  refine ⟨?_, ?_, ?_, ?_⟩ <;> (intro hc; subst hc; simp at h)

theorem foldl_digits_shift (ds : List Char) :
    ∀ acc : Nat,
      ds.foldl (fun a c => a * 10 + dval c) acc =
        acc * 10 ^ ds.length + digsVal ds := by
  induction ds with
  | nil => intro acc; simp [digsVal]
  | cons c cs ih =>
    intro acc
    simp only [List.foldl_cons, digsVal]
    rw [ih (acc * 10 + dval c), ih (0 * 10 + dval c)]
    simp [List.length_cons, pow_succ]
    ring

theorem intDigitsGo_digits (ds : List Char) :
    ∀ acc : Nat, (∀ c ∈ ds, c.isDigit = true) →
      intDigitsGo acc ds = some (ds.foldl (fun a c => a * 10 + dval c) acc) := by
  induction ds with
  | nil => intro acc _; rfl
  | cons c cs ih =>
    intro acc h
    have hc : c.isDigit = true := h c (by simp)
    rw [intDigitsGo.eq_def]
    simp only [hc, if_true, List.foldl_cons]
    exact ih _ (fun x hx => h x (by simp [hx]))

theorem parseDigits_digits (ds : List Char) (hne : ds ≠ [])
    (h : ∀ c ∈ ds, c.isDigit = true) :
    parseDigits ds = some (digsVal ds) := by
  cases ds with
  | nil => exact absurd rfl hne
  | cons c cs =>
    have hc : c.isDigit = true := h c (by simp)
    simp only [parseDigits, hc, if_true]
    rw [intDigitsGo_digits cs (dval c) (fun x hx => h x (by simp [hx]))]
    unfold digsVal
    simp

theorem natDigitsGo_spec (fuel : Nat) :
    ∀ n : Nat, n < 10 ^ fuel →
      (∀ c ∈ natDigitsGo fuel n, c.isDigit = true) ∧
        digsVal (natDigitsGo fuel n).reverse = n := by
  induction fuel with
  | zero =>
    intro n hn
    interval_cases n
    exact ⟨by simp [natDigitsGo], by simp [natDigitsGo, digsVal]⟩
  | succ fuel ih =>
    intro n hn
    by_cases h0 : n = 0
    · subst h0
      exact ⟨by simp [natDigitsGo], by simp [natDigitsGo, digsVal]⟩
    · have hdiv : n / 10 < 10 ^ fuel := by
        rw [Nat.div_lt_iff_lt_mul (by norm_num)]
        calc n < 10 ^ (fuel + 1) := hn
          _ = 10 ^ fuel * 10 := by rw [pow_succ]
      obtain ⟨ihd, ihv⟩ := ih (n / 10) hdiv
      have hmod : n % 10 < 10 := Nat.mod_lt _ (by norm_num)
      obtain ⟨hdig, hdv⟩ := digitChar_spec (n % 10) hmod
      have hgo : natDigitsGo (fuel + 1) n =
          digitChar (n % 10) :: natDigitsGo fuel (n / 10) := by
        simp [natDigitsGo, h0]
      constructor
      · intro c hc
        rw [hgo] at hc
        rcases List.mem_cons.mp hc with h1 | h1
        · subst h1; exact hdig
        · exact ihd c h1
      · rw [hgo, List.reverse_cons]
        unfold digsVal
        rw [List.foldl_append]
        have : (natDigitsGo fuel (n / 10)).reverse.foldl
            (fun a c => a * 10 + dval c) 0 = n / 10 := ihv
        rw [this]
        simp only [List.foldl_cons, List.foldl_nil, hdv]
        omega

theorem natDigits_spec (n : Nat) :
    (∀ c ∈ natDigits n, c.isDigit = true) ∧ digsVal (natDigits n) = n ∧
      natDigits n ≠ [] := by
  by_cases h0 : n = 0
  · subst h0
    exact ⟨by decide, by decide, by decide⟩
  · have hlt : n < 10 ^ n := Nat.lt_pow_self (by norm_num) n
    obtain ⟨hd, hv⟩ := natDigitsGo_spec n n hlt
    have heq : natDigits n = (natDigitsGo n n).reverse := by
      simp [natDigits, h0]
    refine ⟨?_, ?_, ?_⟩
    · intro c hc
      rw [heq] at hc
      exact hd c (List.mem_reverse.mp hc)
    · rw [heq]; exact hv
    · rw [heq]
      simp only [ne_eq, List.reverse_eq_nil_iff]
      intro hcon
      rw [hcon] at hv
      simp [digsVal] at hv
      exact h0 hv.symm

theorem pyInt_default_branch (c : Char) (cs : List Char) (h1 : c ≠ '+') (h2 : c ≠ '-') :
    pyInt? (c :: cs) = (parseDigits (c :: cs)).map Int.ofNat := by
  rw [pyInt?.eq_def]
  split
  · next heq => rw [List.cons.injEq] at heq; exact absurd heq.1 h1
  · next heq => rw [List.cons.injEq] at heq; exact absurd heq.1 h2
  · rfl

theorem pyInt_roundtrip (n : Int) : pyInt? (pyIntStr n) = some n := by
  obtain ⟨hd, hv, hne⟩ := natDigits_spec n.natAbs
  by_cases hneg : n < 0
  · have hstr : pyIntStr n = '-' :: natDigits n.natAbs := by
      unfold pyIntStr
      rw [if_pos hneg]
    rw [hstr]
    show (parseDigits (natDigits n.natAbs)).map (fun k => -Int.ofNat k) = some n
    rw [parseDigits_digits _ hne hd, hv]
    simp only [Option.map_some']
    congr 1
    simp only [Int.ofNat_eq_natCast]
    omega
  · have hstr : pyIntStr n = natDigits n.natAbs := by
      unfold pyIntStr
      rw [if_neg hneg]
    rw [hstr]
    cases hds : natDigits n.natAbs with
    | nil => exact absurd hds hne
    | cons c cs =>
      have hc : c.isDigit = true := by
        rw [hds] at hd; exact hd c (by simp)
      obtain ⟨hp, hm, _, _⟩ := isDigit_ne c hc
      rw [pyInt_default_branch c cs hp hm, ← hds]
      rw [parseDigits_digits _ hne hd, hv]
      simp only [Option.map_some']
      congr 1
      simp only [Int.ofNat_eq_natCast]
      omega

theorem intDigitsGo_cons (acc : Nat) (c : Char) (cs : List Char) :
    intDigitsGo acc (c :: cs) =
      if c.isDigit then intDigitsGo (acc * 10 + dval c) cs
      else if c == '_' then
        (match cs with
         | c2 :: cs2 => if c2.isDigit then intDigitsGo (acc * 10 + dval c2) cs2 else none
         | [] => none)
      else none := by
  rw [intDigitsGo.eq_def]

theorem intDigitsGo_dot_fuel (k : Nat) :
    ∀ (ds : List Char), ds.length ≤ k → ∀ acc, '.' ∈ ds → intDigitsGo acc ds = none := by
  induction k with
  | zero =>
    intro ds hlen acc hdot
    cases ds with
    | nil => simp at hdot
    | cons c cs => simp at hlen
  | succ k ih =>
    intro ds hlen acc hdot
    cases ds with
    | nil => simp at hdot
    | cons c cs =>
      rw [intDigitsGo_cons]
      by_cases hc : c.isDigit = true
      · rw [if_pos hc]
        have hdot2 : '.' ∈ cs := by
          rcases List.mem_cons.mp hdot with h1 | h1
          · subst h1; simp at hc
          · exact h1
        exact ih cs (by simpa using Nat.le_of_succ_le_succ (by simpa using hlen)) _ hdot2
      · rw [if_neg hc]
        by_cases hu : c = '_'
        · subst hu
          rw [if_pos (by simp)]
          have hdot2 : '.' ∈ cs := by
            rcases List.mem_cons.mp hdot with h1 | h1
            · exact absurd h1.symm (by decide)
            · exact h1
          cases cs with
          | nil => simp at hdot2
          | cons c2 cs2 =>
            show (if c2.isDigit = true then intDigitsGo (acc * 10 + dval c2) cs2
              else none) = none
            by_cases hc2 : c2.isDigit = true
            · rw [if_pos hc2]
              have hdot3 : '.' ∈ cs2 := by
                rcases List.mem_cons.mp hdot2 with h1 | h1
                · subst h1; simp at hc2
                · exact h1
              refine ih cs2 ?_ _ hdot3
              have : cs2.length + 2 ≤ k + 1 := by simpa using hlen
              omega
            · rw [if_neg hc2]
        · rw [if_neg (by simpa using hu)]

theorem intDigitsGo_dot (ds : List Char) (acc : Nat) (h : '.' ∈ ds) :
    intDigitsGo acc ds = none :=
  intDigitsGo_dot_fuel ds.length ds le_rfl acc h

theorem pyInt_dot_none (t : List Char) (h : '.' ∈ t) : pyInt? t = none := by
  have hpd : ∀ ds : List Char, '.' ∈ ds → parseDigits ds = none := by
    intro ds hds
    cases ds with
    | nil => simp at hds
    | cons c cs =>
      rw [parseDigits]
      by_cases hc : c.isDigit = true
      · rw [if_pos hc]
        refine intDigitsGo_dot cs _ ?_
        rcases List.mem_cons.mp hds with h1 | h1
        · subst h1; simp at hc
        · exact h1
      · rw [if_neg (by simpa using hc)]
  rw [pyInt?.eq_def]
  split
  · next rest =>
    rw [hpd rest (by
      rcases List.mem_cons.mp h with h1 | h1
      · exact absurd h1.symm (by decide)
      · exact h1)]
    rfl
  · next rest =>
    rw [hpd rest (by
      rcases List.mem_cons.mp h with h1 | h1
      · exact absurd h1.symm (by decide)
      · exact h1)]
    rfl
  · rw [hpd _ h]; rfl

theorem takeDigitsUGo_cons (acc cnt : Nat) (c : Char) (cs : List Char) :
    takeDigitsUGo acc cnt (c :: cs) =
      if c.isDigit then takeDigitsUGo (acc * 10 + dval c) (cnt + 1) cs
      else if c == '_' then
        (match cs with
         | c2 :: cs2 =>
           if c2.isDigit then takeDigitsUGo (acc * 10 + dval c2) (cnt + 1) cs2
           else (acc, cnt, c :: cs)
         | [] => (acc, cnt, [c]))
      else (acc, cnt, c :: cs) := by
  rw [takeDigitsUGo.eq_def]

theorem takeDigitsUGo_digits (ds : List Char) :
    ∀ (acc cnt : Nat) (rest : List Char), (∀ c ∈ ds, c.isDigit = true) → runStop rest →
      takeDigitsUGo acc cnt (ds ++ rest) =
        (ds.foldl (fun a c => a * 10 + dval c) acc, cnt + ds.length, rest) := by
  induction ds with
  | nil =>
    intro acc cnt rest _ hstop
    cases rest with
    | nil => simp [takeDigitsUGo]
    | cons c r =>
      obtain ⟨h1, h2⟩ := hstop
      rw [List.nil_append, takeDigitsUGo_cons, if_neg (by simp [h1]),
        if_neg (by simpa using h2)]
      simp
  | cons c cs ih =>
    intro acc cnt rest h hstop
    have hc : c.isDigit = true := h c (by simp)
    rw [List.cons_append, takeDigitsUGo_cons, if_pos hc]
    rw [ih _ _ rest (fun x hx => h x (by simp [hx])) hstop]
    simp only [List.foldl_cons, List.length_cons, Prod.mk.injEq]
    exact ⟨trivial, by omega, trivial⟩

theorem takeDigitsU_digits (ds rest : List Char) (hne : ds ≠ [])
    (h : ∀ c ∈ ds, c.isDigit = true) (hstop : runStop rest) :
    takeDigitsU (ds ++ rest) = (digsVal ds, ds.length, rest) := by
  cases ds with
  | nil => exact absurd rfl hne
  | cons c cs =>
    have hc : c.isDigit = true := h c (by simp)
    rw [List.cons_append, takeDigitsU, if_pos hc]
    rw [takeDigitsUGo_digits cs _ _ rest (fun x hx => h x (by simp [hx])) hstop]
    unfold digsVal
    simp only [List.foldl_cons, List.length_cons, Prod.mk.injEq]
    exact ⟨by simp, by omega, trivial⟩

theorem fracDigits_spec (d : Nat) (hd : 0 < d) :
    ∀ (fuel r : Nat), r < d → d ∣ 10 ^ fuel * r →
      (∀ c ∈ fracDigits d fuel r, c.isDigit = true) ∧
        ((digsVal (fracDigits d fuel r) : Rat) /
            (10 : Rat) ^ (fracDigits d fuel r).length = (r : Rat) / (d : Rat)) := by
  intro fuel
  induction fuel with
  | zero =>
    intro r hr hdvd
    have hr0 : r = 0 := Nat.eq_zero_of_dvd_of_lt (by simpa using hdvd) hr
    subst hr0
    constructor
    · intro c hc; simp [fracDigits] at hc
    · simp [fracDigits, digsVal]
  | succ fuel ih =>
    intro r hr hdvd
    by_cases hr0 : r = 0
    · subst hr0
      constructor
      · intro c hc; simp [fracDigits] at hc
      · simp [fracDigits, digsVal]
    · have hstep : fracDigits d (fuel + 1) r =
          digitChar (r * 10 / d) :: fracDigits d fuel (r * 10 % d) := by
        rw [fracDigits, if_neg (by simpa using hr0)]
      have hq0 : r * 10 / d < 10 := by
        rw [Nat.div_lt_iff_lt_mul hd]
        omega
      obtain ⟨hdig, hdv⟩ := digitChar_spec _ hq0
      have hr2 : r * 10 % d < d := Nat.mod_lt _ hd
      have hkey : d * (r * 10 / d) + r * 10 % d = r * 10 := Nat.div_add_mod (r * 10) d
      have hdvd2 : d ∣ 10 ^ fuel * (r * 10 % d) := by
        have h1 : 10 ^ (fuel + 1) * r =
            10 ^ fuel * (d * (r * 10 / d)) + 10 ^ fuel * (r * 10 % d) := by
          rw [← Nat.mul_add, hkey]; ring
        have h2 : d ∣ 10 ^ fuel * (d * (r * 10 / d)) :=
          ⟨10 ^ fuel * (r * 10 / d), by ring⟩
        have h3 : d ∣ 10 ^ fuel * (d * (r * 10 / d)) + 10 ^ fuel * (r * 10 % d) :=
          h1 ▸ hdvd
        exact (Nat.dvd_add_right h2).mp h3
      obtain ⟨ihd, ihv⟩ := ih (r * 10 % d) hr2 hdvd2
      rw [hstep]
      constructor
      · intro c hc
        rcases List.mem_cons.mp hc with h1 | h1
        · subst h1; exact hdig
        · exact ihd c h1
      · have hval : digsVal (digitChar (r * 10 / d) :: fracDigits d fuel (r * 10 % d)) =
            (r * 10 / d) * 10 ^ (fracDigits d fuel (r * 10 % d)).length +
              digsVal (fracDigits d fuel (r * 10 % d)) := by
          unfold digsVal
          rw [List.foldl_cons, foldl_digits_shift, hdv]
          simp [digsVal]
        rw [hval, List.length_cons]
        have hdq : (d : Rat) ≠ 0 := Nat.cast_ne_zero.mpr (Nat.pos_iff_ne_zero.mp hd)
        have h10 : (10 : Rat) ^ (fracDigits d fuel (r * 10 % d)).length ≠ 0 :=
          pow_ne_zero _ (by norm_num)
        have hkeyQ : (d : Rat) * ((r * 10 / d : Nat) : Rat) + ((r * 10 % d : Nat) : Rat)
            = 10 * (r : Rat) := by
          have h := congrArg (fun k : Nat => (k : Rat)) hkey
          push_cast at h
          linarith [h]
        rw [div_eq_div_iff h10 hdq] at ihv
        rw [pow_succ]
        push_cast
        rw [div_eq_div_iff (by positivity) hdq]
        linear_combination
          ((10 : Rat) ^ (fracDigits d fuel (r * 10 % d)).length) * hkeyQ + ihv

theorem dvd_ten_pow_self (d m : Nat) (h : d ∣ 10 ^ m) : d ∣ 10 ^ d := by
  have hd0 : d ≠ 0 := by
    rintro rfl
    exact absurd (Nat.eq_zero_of_zero_dvd h) (pow_ne_zero m (by norm_num))
  have h10d : (10 : Nat) ^ d ≠ 0 := pow_ne_zero _ (by norm_num)
  have h10m : (10 : Nat) ^ m ≠ 0 := pow_ne_zero _ (by norm_num)
  rw [← Nat.factorization_le_iff_dvd hd0 h10d]
  have hle := (Nat.factorization_le_iff_dvd hd0 h10m).mpr h
  rw [Finsupp.le_def] at hle ⊢
  intro p
  have hp := hle p
  rw [Nat.factorization_pow] at hp ⊢
  simp only [Finsupp.smul_apply, smul_eq_mul] at hp ⊢
  by_cases hzero : (10 : Nat).factorization p = 0
  · rw [hzero] at hp ⊢
    simpa using hp
  · have h1 : 1 ≤ (10 : Nat).factorization p := Nat.one_le_iff_ne_zero.mpr hzero
    have h2 : d.factorization p < d := Nat.factorization_lt p hd0
    calc d.factorization p ≤ d * 1 := by omega
      _ ≤ d * (10 : Nat).factorization p := Nat.mul_le_mul_left d h1

theorem divInt_ten_pow_den (a k : Nat) :
    ((Rat.divInt (Int.ofNat a) (Int.ofNat (10 ^ k))).den : Nat) ∣ 10 ^ k := by
  have h := Rat.den_dvd (Int.ofNat a) (Int.ofNat (10 ^ k))
  simp only [Int.ofNat_eq_natCast] at h
  exact_mod_cast h

theorem pyFloatNum_den_dvd (t : List Char) (q : Rat) (h : pyFloatNum? t = some q) :
    ∃ k, (q.den : Nat) ∣ 10 ^ k := by
  rw [pyFloatNum?.eq_def] at h
  split at h
  · exact absurd h (by simp)
  · split at h
    · rw [Option.some.injEq] at h
      subst h
      exact ⟨_, divInt_ten_pow_den _ _⟩
    · split at h
      · split at h
        · split at h
          · split at h
            · exact absurd h (by simp)
            · split at h
              · rw [Option.some.injEq] at h
                subst h
                exact ⟨_, divInt_ten_pow_den _ _⟩
              · rw [Option.some.injEq] at h
                subst h
                exact ⟨_, divInt_ten_pow_den _ _⟩
      · exact absurd h (by simp)

theorem pyFloat_finite_den_dvd (t : List Char) (q : Rat)
    (h : pyFloat? t = some (PyFloat.finite q)) : ∃ k, (q.den : Nat) ∣ 10 ^ k := by
  rw [pyFloat?.eq_def] at h
  simp only [beq_iff_eq, Bool.or_eq_true] at h
  repeat' split at h
  all_goals try simp at h
  all_goals
    subst h
    obtain ⟨k, hk⟩ := pyFloatNum_den_dvd _ _ ‹pyFloatNum? _ = some _›
    refine ⟨k, ?_⟩
    exact hk

theorem floatBody_parse (n d : Nat) (hd : 0 < d) (hdvd : d ∣ 10 ^ d) :
    pyFloatNum? (floatBody n d) = some ((n : Rat) / (d : Rat)) := by
  obtain ⟨hId, hIv, hIne⟩ := natDigits_spec (n / d)
  have hmod : n % d < d := Nat.mod_lt _ hd
  obtain ⟨hFd0, hFv0⟩ :=
    fracDigits_spec d hd d (n % d) hmod (Dvd.dvd.mul_right hdvd _)
  have hfb : floatBody n d = natDigits (n / d) ++ '.' ::
      (if (fracDigits d d (n % d)).isEmpty then ['0'] else fracDigits d d (n % d)) := rfl
  set F : List Char :=
    if (fracDigits d d (n % d)).isEmpty then ['0'] else fracDigits d d (n % d) with hF
  have hFne : F ≠ [] := by
    rw [hF]; split
    · simp
    · next h => simpa [List.isEmpty_iff] using h
  have hFd : ∀ c ∈ F, c.isDigit = true := by
    rw [hF]; split
    · intro c hc; simp at hc; subst hc; decide
    · exact hFd0
  have hFv : (digsVal F : Rat) / (10 : Rat) ^ F.length = ((n % d : Nat) : Rat) / d := by
    rw [hF]; split
    · next hemp =>
      have hnil : fracDigits d d (n % d) = [] := List.isEmpty_iff.mp hemp
      rw [hnil] at hFv0
      have h0 : ((n % d : Nat) : Rat) / d = 0 := by
        simpa [digsVal] using hFv0.symm
      have hz : digsVal ['0'] = 0 := by decide
      rw [hz, h0]
      simp
    · exact hFv0
  have htake1 : takeDigitsU (natDigits (n / d) ++ '.' :: F) =
      (digsVal (natDigits (n / d)), (natDigits (n / d)).length, '.' :: F) :=
    takeDigitsU_digits _ _ hIne hId ⟨by decide, by decide⟩
  have htake2 : takeDigitsU F = (digsVal F, F.length, []) := by
    have h := takeDigitsU_digits F [] hFne hFd trivial
    simpa using h
  have hlen0 : ((natDigits (n / d)).length + F.length == 0) = false := by
    have : (natDigits (n / d)).length ≠ 0 := by
      simpa [List.length_eq_zero] using hIne
    simp only [beq_eq_false_iff_ne, ne_eq]
    omega
  have hmant : parseMantissa (floatBody n d) =
      some (digsVal (natDigits (n / d)) * 10 ^ F.length + digsVal F, F.length, []) := by
    rw [hfb, parseMantissa.eq_def, htake1]
    simp only [htake2, hlen0, Bool.false_eq_true, if_false]
  rw [pyFloatNum?.eq_def, hmant]
  rw [Option.some.injEq, Rat.divInt_eq_div]
  simp only [Int.ofNat_eq_natCast]
  push_cast
  rw [hIv]
  have hdq : (d : Rat) ≠ 0 := Nat.cast_ne_zero.mpr (Nat.pos_iff_ne_zero.mp hd)
  have h10 : (10 : Rat) ^ F.length ≠ 0 := pow_ne_zero _ (by norm_num)
  rw [div_eq_div_iff h10 hdq]
  rw [div_eq_div_iff h10 hdq] at hFv
  have hnd : ((n / d : Nat) : Rat) * d + ((n % d : Nat) : Rat) = (n : Rat) := by
    have h := congrArg (fun k : Nat => (k : Rat)) (Nat.div_add_mod n d)
    push_cast at h
    linarith [h]
  linear_combination ((10 : Rat) ^ F.length) * hnd + hFv

theorem pyFloat_neg_branch (r : List Char) :
    pyFloat? ('-' :: r) =
      (if lowerL r == "inf".data || lowerL r == "infinity".data then some PyFloat.ninf
      else if lowerL r == "nan".data then some PyFloat.nan
      else match pyFloatNum? r with
        | some q => some (PyFloat.finite (-q))
        | none => none) := by
  rw [pyFloat?.eq_def]
  rfl

theorem pyFloat_default_branch (c : Char) (cs : List Char) (h1 : c ≠ '+') (h2 : c ≠ '-') :
    pyFloat? (c :: cs) =
      (if lowerL (c :: cs) == "inf".data || lowerL (c :: cs) == "infinity".data then
        some PyFloat.inf
      else if lowerL (c :: cs) == "nan".data then some PyFloat.nan
      else match pyFloatNum? (c :: cs) with
        | some q => some (PyFloat.finite q)
        | none => none) := by
  rw [pyFloat?.eq_def]
  have hmatch : (match c :: cs with
      | '+' :: r => (false, r)
      | '-' :: r => (true, r)
      | _ => (false, c :: cs)) = ((false : Bool), c :: cs) := by
    split
    · next heq => rw [List.cons.injEq] at heq; exact absurd heq.1 h1
    · next heq => rw [List.cons.injEq] at heq; exact absurd heq.1 h2
    · rfl
  rw [hmatch]
  rfl

theorem lower_ne_specials (body : List Char) (hdot : '.' ∈ body) :
    (lowerL body == "inf".data) = false ∧ (lowerL body == "infinity".data) = false ∧
      (lowerL body == "nan".data) = false := by
  have hlow : '.' ∈ lowerL body := List.mem_map.mpr ⟨'.', hdot, by decide⟩
  refine ⟨?_, ?_, ?_⟩ <;>
    (rw [beq_eq_false_iff_ne]
     intro heq
     rw [heq] at hlow
     exact absurd hlow (by decide))

theorem dot_mem_floatBody (n d : Nat) : '.' ∈ floatBody n d := by
  unfold floatBody
  exact List.mem_append.mpr (Or.inr (by simp))

theorem pyFloat_roundtrip (q : Rat) (m : Nat) (hden : (q.den : Nat) ∣ 10 ^ m) :
    pyInt? (pyFloatStr q) = none ∧ pyFloat? (pyFloatStr q) = some (PyFloat.finite q) := by
  have hd : 0 < q.den := q.pos
  have hdvd10 : q.den ∣ 10 ^ q.den := dvd_ten_pow_self _ m hden
  have hbody := floatBody_parse q.num.natAbs q.den hd hdvd10
  have hdot : '.' ∈ floatBody q.num.natAbs q.den := dot_mem_floatBody _ _
  obtain ⟨hinf, hinfty, hnan⟩ := lower_ne_specials _ hdot
  by_cases hneg : q < 0
  · have hstr : pyFloatStr q = '-' :: floatBody q.num.natAbs q.den := by
      unfold pyFloatStr
      rw [if_pos hneg]
      rfl
    have hqnum : q.num < 0 := by
      by_contra hcon
      push_neg at hcon
      exact absurd (Rat.num_nonneg.mp hcon) (not_le.mpr hneg)
    have hcast : ((q.num.natAbs : Nat) : Rat) = -((q.num : Int) : Rat) := by
      rw [Int.cast_natAbs, abs_of_neg hqnum]
      push_cast
      ring
    have hq : ((q.num.natAbs : Nat) : Rat) / (q.den : Rat) = -q := by
      rw [hcast, neg_div, Rat.num_div_den]
    constructor
    · exact pyInt_dot_none _ (by rw [hstr]; exact List.mem_cons_of_mem _ hdot)
    · rw [hstr, pyFloat_neg_branch]
      simp only [hinf, hinfty, hnan, Bool.or_false, Bool.false_eq_true, if_false]
      simp only [hbody, hq, neg_neg]
  · have hstr : pyFloatStr q = floatBody q.num.natAbs q.den := by
      unfold pyFloatStr
      rw [if_neg hneg]
      rfl
    have hqnum : (0 : Int) ≤ q.num := Rat.num_nonneg.mpr (not_lt.mp hneg)
    have hcast : ((q.num.natAbs : Nat) : Rat) = ((q.num : Int) : Rat) := by
      rw [Int.cast_natAbs, abs_of_nonneg hqnum]
    have hq : ((q.num.natAbs : Nat) : Rat) / (q.den : Rat) = q := by
      rw [hcast, Rat.num_div_den]
    obtain ⟨hId, hIv, hIne⟩ := natDigits_spec (q.num.natAbs / q.den)
    constructor
    · exact pyInt_dot_none _ (by rw [hstr]; exact hdot)
    · rw [hstr]
      cases hI : natDigits (q.num.natAbs / q.den) with
      | nil => exact absurd hI hIne
      | cons c cs =>
        have hc : c.isDigit = true := by
          rw [hI] at hId; exact hId c (by simp)
        obtain ⟨hp, hm, _, _⟩ := isDigit_ne c hc
        have hfb2 : floatBody q.num.natAbs q.den =
            c :: (cs ++ '.' ::
              (if (fracDigits q.den q.den (q.num.natAbs % q.den)).isEmpty then ['0']
               else fracDigits q.den q.den (q.num.natAbs % q.den))) := by
          unfold floatBody
          rw [hI]
          rfl
        rw [hfb2, pyFloat_default_branch c _ hp hm, ← hfb2]
        simp only [hinf, hinfty, hnan, Bool.or_false, Bool.false_eq_true, if_false]
        simp only [hbody, hq]

theorem digitChar_isDigit (m : Nat) : (digitChar m).isDigit = true := by
  unfold digitChar
  split <;> decide

theorem fracDigits_all_digits (den : Nat) :
    ∀ (fuel r : Nat), ∀ c ∈ fracDigits den fuel r, c.isDigit = true := by
  intro fuel
  induction fuel with
  | zero => intro r c hc; simp [fracDigits] at hc
  | succ fuel ih =>
    intro r c hc
    rw [fracDigits] at hc
    split at hc
    · simp at hc
    · rcases List.mem_cons.mp hc with h1 | h1
      · subst h1; exact digitChar_isDigit _
      · exact ih _ c h1

theorem dot_mem_pyFloatStr (q : Rat) : '.' ∈ pyFloatStr q := by
  unfold pyFloatStr
  exact List.mem_append.mpr (Or.inr (dot_mem_floatBody _ _))

theorem pyFloatStr_not_space (q : Rat) : ∀ c ∈ pyFloatStr q, pyIsSpace c = false := by
  intro c hc
  unfold pyFloatStr at hc
  rcases List.mem_append.mp hc with h1 | h1
  · have : c = '-' := by
      rcases (by assumption : c ∈ if q < 0 then ['-'] else []) with h
      split at h
      · simpa using h
      · simp at h
    subst this; decide
  · unfold floatBody at h1
    rcases List.mem_append.mp h1 with h2 | h2
    · exact isDigit_not_space c ((natDigits_spec _).1 c h2)
    · rcases List.mem_cons.mp h2 with h3 | h3
      · subst h3; decide
      · split at h3
        · simp at h3; subst h3; decide
        · exact isDigit_not_space c (fracDigits_all_digits _ _ _ c h3)

theorem parseToken_pyStr (tok : List Char) (hne : tok ≠ [])
    (hns : ∀ c ∈ tok, pyIsSpace c = false) :
    pyStr (parseToken tok) ≠ [] ∧ (∀ c ∈ pyStr (parseToken tok), pyIsSpace c = false) ∧
      parseToken (pyStr (parseToken tok)) = parseToken tok := by
  cases hint : pyInt? tok with
  | some n =>
    have hpt : parseToken tok = Value.int n := by rw [parseToken.eq_def, hint]
    rw [hpt]
    show pyIntStr n ≠ [] ∧ (∀ c ∈ pyIntStr n, pyIsSpace c = false) ∧
      parseToken (pyIntStr n) = Value.int n
    obtain ⟨hd, _, hnen⟩ := natDigits_spec n.natAbs
    refine ⟨?_, ?_, ?_⟩
    · unfold pyIntStr
      split
      · simp
      · exact hnen
    · intro c hc
      unfold pyIntStr at hc
      split at hc
      · rcases List.mem_cons.mp hc with h1 | h1
        · subst h1; decide
        · exact isDigit_not_space c (hd c h1)
      · exact isDigit_not_space c (hd c hc)
    · rw [parseToken.eq_def, pyInt_roundtrip n]
  | none =>
    cases hflt : pyFloat? tok with
    | some f =>
      have hpt : parseToken tok = Value.float f := by
        rw [parseToken.eq_def, hint, hflt]
      rw [hpt]
      cases f with
      | finite q =>
        show pyFloatStr q ≠ [] ∧ (∀ c ∈ pyFloatStr q, pyIsSpace c = false) ∧
          parseToken (pyFloatStr q) = Value.float (PyFloat.finite q)
        obtain ⟨m, hm⟩ := pyFloat_finite_den_dvd tok q hflt
        obtain ⟨hi, hf⟩ := pyFloat_roundtrip q m hm
        refine ⟨List.ne_nil_of_mem (dot_mem_pyFloatStr q), pyFloatStr_not_space q, ?_⟩
        rw [parseToken.eq_def, hi, hf]
      | inf => exact ⟨by decide, by decide, by decide⟩
      | ninf => exact ⟨by decide, by decide, by decide⟩
      | nan => exact ⟨by decide, by decide, by decide⟩
    | none =>
      have hpt : parseToken tok = Value.str tok := by
        rw [parseToken.eq_def, hint, hflt]
      rw [hpt]
      exact ⟨hne, hns, hpt⟩

theorem reparse_join (L : List Value)
    (hL : ∀ v ∈ L, ∃ tok, tok ≠ [] ∧ (∀ c ∈ tok, pyIsSpace c = false) ∧
      v = parseToken tok) :
    parse_input (String.mk (spaceJoinL (L.map pyStr))) = L := by
  have hvals : ∀ v ∈ L, pyStr v ≠ [] ∧ (∀ c ∈ pyStr v, pyIsSpace c = false) ∧
      parseToken (pyStr v) = v := by
    intro v hv
    obtain ⟨tok, h1, h2, h3⟩ := hL v hv
    subst h3
    exact parseToken_pyStr tok h1 h2
  rw [parse_input_elim_guard]
  have hdata : (String.mk (spaceJoinL (L.map pyStr))).data = spaceJoinL (L.map pyStr) :=
    rfl
  rw [hdata]
  rw [pySplit_join (L.map pyStr) (by
    intro t ht
    obtain ⟨v, hv, rfl⟩ := List.mem_map.mp ht
    exact ⟨(hvals v hv).1, (hvals v hv).2.1⟩)]
  rw [List.map_map]
  simp only [Function.comp_def]
  rw [List.map_congr_left (g := id) (fun v hv => (hvals v hv).2.2)]
  exact List.map_id L

theorem sort_data_perm (l : List Value) (rev : Bool) : (sort_data l rev).Perm l := by
  have hps : pySorted l rev = if hasStrV l && hasNumV l then Except.error ()
      else Except.ok (List.insertionSort (fun a b => sortRel rev a b = true) l) := rfl
  by_cases hmix : (hasStrV l && hasNumV l) = true
  · have h2 : sort_data l rev = if l.isEmpty then [] else l := by
      unfold sort_data
      rw [hps, if_pos hmix]
    rw [h2]
    split
    · next h => rw [List.isEmpty_iff.mp h]
    · exact List.Perm.refl l
  · have h2 : sort_data l rev = if l.isEmpty then []
        else List.insertionSort (fun a b => sortRel rev a b = true) l := by
      unfold sort_data
      rw [hps, if_neg hmix]
    rw [h2]
    split
    · next h => rw [List.isEmpty_iff.mp h]
    · exact List.perm_insertionSort _ l

/-- C1: for every request string whose parsed token sequence is non-empty and
consists of Values of a single comparable tag, the sorting handler returns the
sorted sequence joined by single spaces, and re-parsing that response yields
exactly the independently sorted parse of the input. -/
theorem C1_sorting_handler_roundtrip (s : String) (t : VTag)
    (hne : parse_input s ≠ [])
    (_htag : ∀ v ∈ parse_input s, vTag v = t) :
    sorting_handler s =
      String.mk (spaceJoinL ((sort_data (parse_input s) false).map pyStr)) ∧
    parse_input (sorting_handler s) = sort_data (parse_input s) false := by
  have hh : sorting_handler s =
      String.mk (spaceJoinL ((sort_data (parse_input s) false).map pyStr)) := by
    show (if (parse_input s).isEmpty then "Error: No valid data to sort"
      else String.mk (spaceJoinL ((sort_data (parse_input s) false).map pyStr))) = _
    rw [if_neg (by simpa [List.isEmpty_iff] using hne)]
  refine ⟨hh, ?_⟩
  rw [hh]
  apply reparse_join
  intro v hv
  have hvmem : v ∈ parse_input s := ((sort_data_perm _ false).mem_iff).mp hv
  rw [parse_input_elim_guard] at hvmem
  obtain ⟨tok, htok, rfl⟩ := List.mem_map.mp hvmem
  obtain ⟨h1, h2⟩ := tokensAux_token_facts s.data [] (by simp) tok htok
  exact ⟨tok, h1, h2, rfl⟩

theorem C1_witness :
    (parse_input "3 1 2" ≠ [] ∧ ∀ v ∈ parse_input "3 1 2", vTag v = VTag.int) ∧
      parse_input (sorting_handler "3 1 2") = sort_data (parse_input "3 1 2") false :=
  ⟨⟨by decide, by decide⟩,
    (C1_sorting_handler_roundtrip "3 1 2" VTag.int (by decide) (by decide)).2⟩

/-- C2: for every list of values over which no total order can be established
(mixed incomparable tags: some str together with some int or float), the sort
operation does not raise — it is total and returns the input sequence
unchanged, the caught TypeError only producing a warning print. -/
theorem C2_sort_mixed_unchanged (l : List Value) (rev : Bool)
    (hs : hasStrV l = true) (hn : hasNumV l = true) :
    sort_data l rev = l := by
  have hne : l ≠ [] := by
    rintro rfl
    simp [hasStrV] at hs
  unfold sort_data
  rw [if_neg (by simpa [List.isEmpty_iff] using hne)]
  have hps : pySorted l rev = Except.error () := by
    unfold pySorted
    rw [if_pos (by rw [hs, hn]; rfl)]
  rw [hps]

theorem C2_witness :
    (hasStrV [Value.str ['a'], Value.int 1] = true ∧
      hasNumV [Value.str ['a'], Value.int 1] = true) ∧
    sort_data [Value.str ['a'], Value.int 1] false = [Value.str ['a'], Value.int 1] :=
  ⟨⟨by decide, by decide⟩, C2_sort_mixed_unchanged _ false (by decide) (by decide)⟩

/-- C3: for every input string whose parse yields an empty token sequence, the
sorting handler returns exactly the literal string reporting no valid data. -/
theorem C3_empty_parse_error (s : String) (h : parse_input s = []) :
    sorting_handler s = "Error: No valid data to sort" := by
  show (if (parse_input s).isEmpty then "Error: No valid data to sort" else _) = _
  rw [if_pos (by simp [h])]

theorem C3_witness :
    parse_input "   " = [] ∧ sorting_handler "   " = "Error: No valid data to sort" :=
  ⟨by decide, C3_empty_parse_error "   " (by decide)⟩

/-- C4: for every received frame whose decoded text strips to the empty
string, the connection worker exits its loop and closes the connection —
producing no response and never invoking the installed handler, whatever
frames follow. -/
theorem C4_whitespace_closes (handler : Option (String → String)) (frame : String)
    (rest : List String) (h : pyStripS frame = "") :
    handle_client_connection handler (frame :: rest) = ([], []) := by
  simp [handle_client_connection, h]

theorem C4_witness :
    pyStripS " \t " = "" ∧
      handle_client_connection (some sorting_handler) [" \t ", "1 2"] = ([], []) :=
  ⟨by decide, C4_whitespace_closes (some sorting_handler) " \t " ["1 2"] (by decide)⟩

/-- C7: with no handler installed, every frame with non-empty stripped text is
answered by the default echo response: the stripped request prefixed with the
literal Echo marker, framed by the trailing newline. -/
theorem C7_echo_default (frame : String) (rest : List String)
    (h : pyStripS frame ≠ "") :
    handle_client_connection none (frame :: rest) =
      (("Echo: " ++ pyStripS frame ++ "\n") :: (handle_client_connection none rest).1,
        (handle_client_connection none rest).2) := by
  simp [handle_client_connection, h]

theorem C7_witness :
    pyStripS " hi " ≠ "" ∧
      handle_client_connection none [" hi "] =
        (("Echo: " ++ pyStripS " hi " ++ "\n") :: (handle_client_connection none []).1,
          (handle_client_connection none []).2) :=
  ⟨by decide, C7_echo_default " hi " [] (by decide)⟩

/-- C5 counterexample: on the connection-refused path the socket opened by
send_data is not closed before returning — the close flag of the model, which
records whether the close() line was reached, is false there. -/
theorem C5_counterexample :
    (send_data "localhost" 8080 "test data" 5 SendOutcome.refused).2 = false := rfl

/-- C5 amended: the socket opened by a send_data call is closed before
returning exactly on the successful path; on the refusal, timeout and other
fault paths the except arms return the descriptive string without reaching
the close() call. -/
theorem C5_socket_closed_iff_success (host : String) (port : Nat) (data : String)
    (timeout : Nat) (o : SendOutcome) :
    (send_data host port data timeout o).2 = true ↔
      ∃ raw, o = SendOutcome.success raw := by
  cases o <;> simp [send_data]

/-- C6: when no listener is reachable (connect_ex yields a non-zero error
code and connect raises ConnectionRefusedError), test_connection returns
false and send_data returns a string containing the Cannot connect text;
both are total functions, so neither propagates a raised fault. -/
theorem C6_refused_results (host : String) (port : Nat) (data : String)
    (timeout : Nat) (r : Int) (hr : r ≠ 0) :
    test_connection (ProbeOutcome.code r) = false ∧
      ∃ pre post, (send_data host port data timeout SendOutcome.refused).1 =
        pre ++ ("Cannot connect" ++ post) := by
  constructor
  · simp [test_connection, hr]
  · refine ⟨"Error: ", " to server at " ++ host ++ ":" ++ toString port, ?_⟩
    show "Error: Cannot connect to server at " ++ host ++ ":" ++ toString port = _
    have hlit : "Error: Cannot connect to server at " =
        ("Error: " ++ "Cannot connect") ++ " to server at " := by decide
    simp only [String.append_assoc]
    rw [hlit]
    simp only [String.append_assoc]

theorem C6_witness :
    (111 : Int) ≠ 0 ∧
      (test_connection (ProbeOutcome.code 111) = false ∧
        ∃ pre post, (send_data "localhost" 8080 "test data" 5 SendOutcome.refused).1 =
          pre ++ ("Cannot connect" ++ post)) :=
  ⟨by decide, C6_refused_results "localhost" 8080 "test data" 5 111 (by decide)⟩

/-- C9: every string with at least one non-whitespace character parses to a
non-empty list — parse_input keeps every whitespace-separated token — so on
any request text the worker actually hands to the handler (stripped and
non-empty), the sorting handler takes the sort-and-join branch and its
no-valid-data error branch is unreachable. -/
theorem C9_error_branch_unreachable (frame : String) (h : pyStripS frame ≠ "") :
    parse_input (pyStripS frame) ≠ [] ∧
      sorting_handler (pyStripS frame) =
        String.mk (spaceJoinL
          ((sort_data (parse_input (pyStripS frame)) false).map pyStr)) := by
  have hdata : (pyStripS frame).data = pyStripL frame.data := rfl
  have hstrip_ne : pyStripL frame.data ≠ [] := by
    intro hcon
    apply h
    show String.mk (pyStripL frame.data) = ""
    rw [hcon]
  have hnonspace : ∃ c ∈ frame.data, pyIsSpace c = false := by
    by_contra hcon
    push_neg at hcon
    refine hstrip_ne ((pyStripL_eq_nil_iff frame.data).mpr ?_)
    intro c hc
    have := hcon c hc
    simpa using this
  have hsplit_ne : pySplitL (pyStripS frame).data ≠ [] := by
    rw [hdata, pySplit_strip]
    exact tokensAux_ne_nil frame.data [] (Or.inr hnonspace)
  have hp : parse_input (pyStripS frame) ≠ [] := by
    rw [parse_input_elim_guard]
    simpa using hsplit_ne
  refine ⟨hp, ?_⟩
  show (if (parse_input (pyStripS frame)).isEmpty then _ else _) = _
  rw [if_neg (by simpa [List.isEmpty_iff] using hp)]

theorem C9_witness :
    pyStripS " 2 1 " ≠ "" ∧ parse_input (pyStripS " 2 1 ") ≠ [] :=
  ⟨by decide, (C9_error_branch_unreachable " 2 1 " (by decide)).1⟩

/-- C10: for every input list (and either sort direction), the output of
sort_data is a permutation of the input — both on the sorted path and on the
mixed-tags fallback path; the embedding is pure, matching that sorted()
builds a new list and never mutates its argument. -/
theorem C10_sort_data_permutation (l : List Value) (rev : Bool) :
    (sort_data l rev).Perm l := sort_data_perm l rev

theorem char_eq_of_toNat_eq (a b : Char) (h : a.toNat = b.toNat) : a = b := by
  apply Char.eq_of_val_eq
  apply UInt32.ext
  exact h

theorem strLtB_cons (a b : Char) (as bs : List Char) :
    strLtB (a :: as) (b :: bs) =
      if a.toNat < b.toNat then true
      else if b.toNat < a.toNat then false
      else strLtB as bs := rfl

theorem strLtB_trans (a : List Char) :
    ∀ (b c : List Char), strLtB a b = true → strLtB b c = true → strLtB a c = true := by
  induction a with
  | nil =>
    intro b c hab hbc
    cases c with
    | nil =>
      cases b with
      | nil => simp [strLtB] at hab
      | cons y ys => simp [strLtB] at hbc
    | cons z zs => simp [strLtB]
  | cons x xs ih =>
    intro b c hab hbc
    cases b with
    | nil => simp [strLtB] at hab
    | cons y ys =>
      cases c with
      | nil => simp [strLtB] at hbc
      | cons z zs =>
        rw [strLtB_cons] at hab hbc ⊢
        rcases Nat.lt_trichotomy x.toNat y.toNat with h1 | h1 | h1
        · rcases Nat.lt_trichotomy y.toNat z.toNat with h2 | h2 | h2
          · rw [if_pos (by omega)]
          · rw [if_pos (by omega)]
          · rw [if_neg (by omega), if_pos h2] at hbc
            exact absurd hbc (by simp)
        · rw [if_neg (by omega), if_neg (by omega)] at hab
          rcases Nat.lt_trichotomy y.toNat z.toNat with h2 | h2 | h2
          · rw [if_pos (by omega)]
          · rw [if_neg (by omega), if_neg (by omega)] at hbc
            rw [if_neg (by omega), if_neg (by omega)]
            exact ih ys zs hab hbc
          · rw [if_neg (by omega), if_pos h2] at hbc
            exact absurd hbc (by simp)
        · rw [if_neg (by omega), if_pos h1] at hab
          exact absurd hab (by simp)

theorem strLtB_false_cases (a : List Char) :
    ∀ (b : List Char), strLtB a b = false → strLtB b a = true ∨ a = b := by
  induction a with
  | nil =>
    intro b h
    cases b with
    | nil => exact Or.inr rfl
    | cons y ys => simp [strLtB] at h
  | cons x xs ih =>
    intro b h
    cases b with
    | nil => exact Or.inl (by simp [strLtB])
    | cons y ys =>
      rw [strLtB_cons] at h
      rcases Nat.lt_trichotomy x.toNat y.toNat with h1 | h1 | h1
      · rw [if_pos h1] at h
        exact absurd h (by simp)
      · rw [if_neg (by omega), if_neg (by omega)] at h
        rcases ih ys h with h2 | h2
        · left
          rw [strLtB_cons, if_neg (by omega), if_neg (by omega)]
          exact h2
        · right
          rw [char_eq_of_toNat_eq x y h1, h2]
      · left
        rw [strLtB_cons, if_pos h1]

theorem strLe_trans (sa sb sc : List Char) (h1 : strLtB sb sa = false)
    (h2 : strLtB sc sb = false) : strLtB sc sa = false := by
  by_contra hcon
  rw [Bool.not_eq_false] at hcon
  rcases strLtB_false_cases sc sb h2 with h3 | h3
  · have h4 := strLtB_trans sb sc sa h3 hcon
    rw [h4] at h1
    exact absurd h1 (by simp)
  · rw [h3] at hcon
    rw [hcon] at h1
    exact absurd h1 (by simp)

theorem pfLe_trans (x y z : PyFloat) (h1 : pfLe x y = true) (h2 : pfLe y z = true) :
    pfLe x z = true := by
  cases x <;> cases y <;> cases z <;> simp [pfLe] at * <;> exact le_trans h1 h2

theorem pfLe_not_lt (x y : PyFloat) (h : pfLe x y = true) : pfLt y x = false := by
  cases x <;> cases y <;> simp [pfLe, pfLt] at * <;> exact h

theorem pyLe_same_kind (a b : Value) (x : Bool) (h : pyLe? a b = some x) :
    isStrV a = isStrV b := by
  cases a <;> cases b <;> simp [pyLe?, isStrV] at *

theorem pyLe_trans (a b c : Value) (h1 : pyLe? a b = some true)
    (h2 : pyLe? b c = some true) : pyLe? a c = some true := by
  cases a <;> cases b <;> cases c <;>
    (try simp only [pyLe?, Option.some.injEq] at h1) <;>
    (try simp only [pyLe?, Option.some.injEq] at h2) <;>
    (try simp only [pyLe?, Option.some.injEq]) <;>
    first
      | exact Option.noConfusion h1
      | exact Option.noConfusion h2
      | exact pfLe_trans _ _ _ h1 h2
      | (rw [Bool.not_eq_true'] at h1 h2 ⊢
         exact strLe_trans _ _ _ h1 h2)

theorem pyLe_sortRel (a b : Value) (h : pyLe? a b = some true) :
    sortRel false a b = true := by
  have hrel : sortRel false a b = !pyLtB b a := rfl
  rw [hrel, Bool.not_eq_true']
  cases a <;> cases b <;>
    (try simp only [pyLe?, Option.some.injEq] at h) <;>
    (try simp only [pyLtB, pyLt?, Option.getD_some]) <;>
    first
      | exact Option.noConfusion h
      | exact pfLe_not_lt _ _ h
      | (rw [Bool.not_eq_true'] at h
         exact h)

theorem isSortedAux_cons (rev : Bool) (a b : Value) (rest : List Value) :
    isSortedAux rev a (b :: rest) =
      match (if rev then pyLe? b a else pyLe? a b) with
      | none => Except.error ()
      | some false => Except.ok false
      | some true => isSortedAux rev b rest := by
  rw [isSortedAux.eq_def]

theorem isSorted_chain (rest : List Value) :
    ∀ a : Value, isSortedAux false a rest = Except.ok true →
      List.Chain' (fun x y => pyLe? x y = some true) (a :: rest) := by
  induction rest with
  | nil => intro a _; simp
  | cons b r2 ih =>
    intro a h
    rw [isSortedAux_cons] at h
    rw [if_neg (by simp)] at h
    rw [List.chain'_cons]
    cases hab : pyLe? a b with
    | none => rw [hab] at h; exact absurd h (by simp)
    | some v =>
      cases v with
      | false => rw [hab] at h; exact absurd h (by simp)
      | true =>
        rw [hab] at h
        exact ⟨rfl, ih b h⟩

theorem chain_same_kind (rest : List Value) :
    ∀ a : Value, List.Chain' (fun x y => pyLe? x y = some true) (a :: rest) →
      ∀ v ∈ a :: rest, isStrV v = isStrV a := by
  induction rest with
  | nil =>
    intro a _ v hv
    simp at hv
    rw [hv]
  | cons b r2 ih =>
    intro a h v hv
    rw [List.chain'_cons] at h
    obtain ⟨hab, hrest⟩ := h
    have hk : isStrV a = isStrV b := pyLe_same_kind a b true hab
    rcases List.mem_cons.mp hv with h1 | h1
    · rw [h1]
    · rw [ih b hrest v h1, hk]

/-- C8: sorting is idempotent — for every list that the code's own is_sorted
check accepts (every adjacent pair compares less-or-equal without raising),
sort_data returns the same list. -/
theorem C8_sort_idempotent (l : List Value)
    (h : is_sorted l false = Except.ok true) : sort_data l false = l := by
  cases l with
  | nil => rfl
  | cons a rest =>
    have hchain : List.Chain' (fun x y => pyLe? x y = some true) (a :: rest) :=
      isSorted_chain rest a h
    have hkind := chain_same_kind rest a hchain
    have hmix : (hasStrV (a :: rest) && hasNumV (a :: rest)) = false := by
      cases hk : isStrV a
      · have hns : hasStrV (a :: rest) = false := by
          simp only [hasStrV, List.any_eq_false]
          intro v hv
          rw [hkind v hv, hk]
          simp
        simp [hns]
      · have hnn : hasNumV (a :: rest) = false := by
          simp only [hasNumV, List.any_eq_false]
          intro v hv
          rw [hkind v hv, hk]
          simp
        simp [hnn]
    have hpair : List.Pairwise (fun x y => pyLe? x y = some true) (a :: rest) := by
      haveI : IsTrans Value (fun x y => pyLe? x y = some true) :=
        ⟨fun x y z hxy hyz => pyLe_trans x y z hxy hyz⟩
      exact List.chain'_iff_pairwise.mp hchain
    have hsorted : List.Sorted (fun x y => sortRel false x y = true) (a :: rest) :=
      hpair.imp (fun hxy => pyLe_sortRel _ _ hxy)
    unfold sort_data
    rw [if_neg (by simp)]
    have hps : pySorted (a :: rest) false =
        Except.ok (List.insertionSort (fun x y => sortRel false x y = true) (a :: rest)) := by
      unfold pySorted
      rw [if_neg (by simp [hmix])]
    rw [hps]
    show List.insertionSort (fun x y => sortRel false x y = true) (a :: rest) = a :: rest
    exact List.Sorted.insertionSort_eq hsorted

theorem C8_witness :
    is_sorted [Value.str ['a'], Value.str ['b']] false = Except.ok true ∧
      sort_data [Value.str ['a'], Value.str ['b']] false =
        [Value.str ['a'], Value.str ['b']] :=
  ⟨rfl, C8_sort_idempotent [Value.str ['a'], Value.str ['b']] rfl⟩
